import Mathlib

/-!
Verification of the action extraction / execution subsystem of the
aykay76/llmapi coding agent, shallowly embedded from the Go sources
(internal/agent/actions.go — current variant, internal/agent/agent.go,
pkg/ollama/client.go).

Modelling conventions:
* Go strings are Lean `String`s; all character-level work happens on
  `String.data : List Char`.  Byte-level UTF-8 details are ignored (all
  inputs of interest are ASCII).
* Go error values are `Option String` carrying the message; quote
  characters inside Go format strings are dropped from the messages.
* The filesystem is an association list from full path to content; the
  working-directory join `filepath.Join(workDir, path)` is modelled as
  `workDir ++ "/" ++ path` (the lexical cleaning step of `filepath.Join`
  is omitted; the properties proved here only use that the join is a
  function of the pair).
* Subprocess outcomes are an oracle `cmdOk : String → Bool`.
* Several scanners take a fuel argument; callers always pass a fuel that
  is at least the input length plus one, so fuel exhaustion never occurs
  on the executions appearing in the theorems (both sides of every
  equation use the same fuel).
-/

/-! ## Character and string utilities (Go `strings` package models) -/

/-- `unicode.IsSpace` restricted to ASCII, as used by `strings.TrimSpace`
and `strings.Fields`. -/
def isGoSpace (c : Char) : Bool :=
  c = ' ' || c = '\t' || c = '\n' || c = '\x0b' || c = '\x0c' || c = '\r'

/-- The character class `\s` of Go's regexp package: `[\t\n\f\r ]`. -/
def isReSpace (c : Char) : Bool :=
  c = ' ' || c = '\t' || c = '\n' || c = '\x0c' || c = '\r'

/-- The character class `\w` of Go's regexp package: `[0-9A-Za-z_]`. -/
def isWordChar (c : Char) : Bool :=
  c.isAlphanum || c = '_'

/-- Whitespace of the JSON grammar (`encoding/json`). -/
def isJsonWs (c : Char) : Bool :=
  c = ' ' || c = '\t' || c = '\n' || c = '\r'

/-- `strings.TrimSpace` on character lists. -/
def goTrimChars (l : List Char) : List Char :=
  ((l.dropWhile isGoSpace).reverse.dropWhile isGoSpace).reverse

/-- `strings.TrimSpace`. -/
def goTrim (s : String) : String :=
  String.mk (goTrimChars s.data)

/-- If `lit` is a prefix of `s`, return the remainder. -/
def dropLit? : List Char → List Char → Option (List Char)
  | [], s => some s
  | _ :: _, [] => none
  | a :: as, b :: bs => if a = b then dropLit? as bs else none

/-- Case-insensitive variant of `dropLit?` (for `(?i)` regex literals). -/
def dropLitCI? : List Char → List Char → Option (List Char)
  | [], s => some s
  | _ :: _, [] => none
  | a :: as, b :: bs => if a.toLower = b.toLower then dropLitCI? as bs else none

/-- `sub` is a prefix of `s` (Boolean). -/
def isPre : List Char → List Char → Bool
  | [], _ => true
  | _ :: _, [] => false
  | a :: as, b :: bs => a = b && isPre as bs

/-- `sub` occurs as a contiguous sublist of `s`
(Go `strings.Contains(s, sub)`). -/
def occursIn (sub : List Char) : List Char → Bool
  | [] => sub.isEmpty
  | c :: cs => isPre sub (c :: cs) || occursIn sub cs

/-- Go `strings.Contains(s, sub)`. -/
def strContains (s sub : String) : Bool :=
  occursIn sub.data s.data

/-- Replace the first occurrence of `sub` by `repl`
(Go `strings.Replace(s, sub, repl, 1)`); like Go, an empty `sub`
matches at the start of the string. -/
def replaceFirstChars (sub repl : List Char) : List Char → List Char
  | [] => if sub.isEmpty then repl else []
  | c :: cs =>
    if isPre sub (c :: cs) then repl ++ (c :: cs).drop sub.length
    else c :: replaceFirstChars sub repl cs

/-- Go `strings.Replace(s, sub, repl, 1)`. -/
def goReplaceFirst (s sub repl : String) : String :=
  String.mk (replaceFirstChars sub.data repl.data s.data)

/-- Replace all non-overlapping occurrences, left to right, of the
non-empty pattern `d :: ds` (Go `strings.ReplaceAll` for a non-empty old
string; the agent only uses it with old = `".."`). -/
def replaceAllChars (d : Char) (ds repl : List Char) : List Char → List Char
  | [] => []
  | c :: cs =>
    if isPre (d :: ds) (c :: cs) then repl ++ replaceAllChars d ds repl (cs.drop ds.length)
    else c :: replaceAllChars d ds repl cs
termination_by l => l.length
decreasing_by
  · simp only [List.length_drop, List.length_cons]; omega
  · simp only [List.length_cons]; omega

/-- Go `strings.ReplaceAll(s, sub, repl)` for non-empty `sub`. -/
def goReplaceAll (s sub repl : String) : String :=
  match sub.data with
  | [] => s
  | d :: ds => String.mk (replaceAllChars d ds repl.data s.data)

/-- Worker for `goFields`: `cur` holds the current in-progress field in
reverse order. -/
def goFieldsAux (cur : List Char) : List Char → List (List Char)
  | [] => if cur.isEmpty then [] else [cur.reverse]
  | c :: cs =>
    if isGoSpace c then
      if cur.isEmpty then goFieldsAux [] cs else cur.reverse :: goFieldsAux [] cs
    else goFieldsAux (c :: cur) cs

/-- Go `strings.Fields`: split around runs of whitespace, dropping empty
fields. -/
def goFields (s : String) : List String :=
  (goFieldsAux [] s.data).map String.mk

/-- Go `strings.ToLower`, ASCII part. -/
def toLowerStr (s : String) : String :=
  String.mk (s.data.map Char.toLower)

/-- Go `strings.TrimSuffix`. -/
def goTrimSuffix (s suffix : String) : String :=
  if isPre suffix.data.reverse s.data.reverse then
    String.mk (s.data.take (s.data.length - suffix.data.length))
  else s

/-- `filepath.Ext`: scan the reversed path, collecting until the final
dot; a path separator before any dot means no extension. -/
def extRevAux (acc : List Char) : List Char → Option (List Char)
  | [] => none
  | c :: cs =>
    if c = '/' then none
    else if c = '.' then some ('.' :: acc)
    else extRevAux (c :: acc) cs

/-- Go `path/filepath.Ext`. -/
def filepathExt (s : String) : String :=
  match extRevAux [] s.data.reverse with
  | some e => String.mk e
  | none => ""

/-- Model of `filepath.Join(workDir, path)`; see the header comment. -/
def joinPath (workDir p : String) : String :=
  workDir ++ "/" ++ p

/-! ## Actions (internal/agent/actions.go)

The Go `Action` interface with its five implementations becomes a closed
inductive type; field order follows the Go struct definitions.  The
agent code lives in the `Agent` namespace (the bare name `Action` is
taken by Mathlib). -/

namespace Agent

inductive Action where
  | createFile (path content : String)
  | executeCommand (command description : String)
  | createDirectory (path : String)
  | modifyFile (path search replace : String)
  | readFile (path : String)
deriving DecidableEq, Repr

/-- The `Validate` methods.  `none` means the action passed validation;
`some msg` is the returned error (quote characters of the Go messages
are dropped).  Note that, as in the source, only `CreateFileAction` and
`CreateDirectoryAction` check for the substring `..`; `ModifyFileAction`
and `ReadFileAction` check emptiness only. -/
def validate : Action → Option String
  | .createFile p _ =>
    if p = "" then some "file path cannot be empty"
    else if strContains p ".." then some "file path cannot contain .." else none
  | .executeCommand c _ =>
    if c = "" then some "command cannot be empty" else none
  | .createDirectory p =>
    if p = "" then some "directory path cannot be empty"
    else if strContains p ".." then some "directory path cannot contain .." else none
  | .modifyFile p s _ =>
    if p = "" then some "file path cannot be empty"
    else if s = "" then some "search string cannot be empty" else none
  | .readFile p =>
    if p = "" then some "file path cannot be empty" else none

/-! ## Execution model

The world state records the files (full path to content) and the
directories created so far.  `os.MkdirAll` is modelled as always
succeeding; a spawned subprocess's exit status comes from the oracle
`cmdOk` applied to the command line. -/

structure World where
  files : List (String × String)
  dirs : List String
deriving Repr

/-- `os.ReadFile`: first binding of the path. -/
def fsRead (fs : List (String × String)) (p : String) : Option String :=
  (fs.find? (fun e => e.1 = p)).map Prod.snd

/-- `os.WriteFile`: create or overwrite. -/
def fsWrite : List (String × String) → String → String → List (String × String)
  | [], p, v => [(p, v)]
  | e :: rest, p, v => if e.1 = p then (p, v) :: rest else e :: fsWrite rest p v

/-- The `Execute` methods of the five action types, following
actions.go.  Returns the error (if any) and the world after the call;
every failing branch of the source performs no write, so the world is
returned unchanged there. -/
def execAction (cmdOk : String → Bool) (wd : String) (a : Action) (w : World) :
    Option String × World :=
  match a with
  | .createFile p content =>
    (none, ⟨fsWrite w.files (joinPath wd p) content, w.dirs⟩)
  | .executeCommand cmd _ =>
    match goFields cmd with
    | [] => (some "empty command", w)
    | _ :: _ => if cmdOk cmd then (none, w) else (some "command failed", w)
  | .createDirectory p =>
    (none, ⟨w.files, joinPath wd p :: w.dirs⟩)
  | .modifyFile p srch repl =>
    let full := joinPath wd p
    match fsRead w.files full with
    | none => (some ("failed to read file " ++ full), w)
    | some content =>
      let newContent := goReplaceFirst content srch repl
      if newContent = content then
        (some ("search string not found in file " ++ full), w)
      else (none, ⟨fsWrite w.files full newContent, w.dirs⟩)
  | .readFile p =>
    match fsRead w.files (joinPath wd p) with
    | none => (some ("failed to read file " ++ joinPath wd p), w)
    | some _ => (none, w)

/-- The loop body of `ExecuteActions` (current variant, cmd/agent tree):
validate, then execute, recording one outcome per action (`none` =
success), never aborting; `i` is the 1-based index used in the
messages. -/
def executeActionsAux (cmdOk : String → Bool) (wd : String) :
    Nat → List Action → World → List (Option String) × World
  | _, [], w => ([], w)
  | i, a :: rest, w =>
    match validate a with
    | some e =>
      let r := executeActionsAux cmdOk wd (i + 1) rest w
      (some ("validation failed for action " ++ toString i ++ ": " ++ e) :: r.1, r.2)
    | none =>
      match execAction cmdOk wd a w with
      | (some e, w1) =>
        let r := executeActionsAux cmdOk wd (i + 1) rest w1
        (some ("execution failed for action " ++ toString i ++ ": " ++ e) :: r.1, r.2)
      | (none, w1) =>
        let r := executeActionsAux cmdOk wd (i + 1) rest w1
        (none :: r.1, r.2)

/-- `ExecuteActions`: run every action, collect the failures, and report
an aggregate error carrying the failure count when any action failed. -/
def executeActions (cmdOk : String → Bool) (wd : String) (actions : List Action)
    (w : World) : Option String × World :=
  let r := executeActionsAux cmdOk wd 1 actions w
  let failed := r.1.filterMap id
  (if failed.length > 0 then
     some ("completed with " ++ toString failed.length ++ " failure(s)")
   else none, r.2)

/-! ## JSON values and a model of `encoding/json.Unmarshal`

`JsonVal` mirrors what `json.Unmarshal` produces for an `interface{}`
target: objects (Go maps — modelled as association lists with unique
keys, a duplicate key overwriting the earlier value in place), arrays,
strings, numbers (kept as their source lexeme), booleans and null.
Go map iteration order is unspecified; the model iterates objects in
first-appearance order, which is one of the admissible orders and does
not affect any claim proved here. -/

inductive JsonVal where
  | null
  | bool (b : Bool)
  | num (raw : String)
  | str (s : String)
  | arr (items : List JsonVal)
  | obj (fields : List (String × JsonVal))
deriving Repr

/-- Insert a key/value pair with Go-map semantics: a duplicate key
overwrites the earlier value in place. -/
def objInsert : List (String × JsonVal) → String → JsonVal → List (String × JsonVal)
  | [], k, v => [(k, v)]
  | e :: rest, k, v => if e.1 = k then (k, v) :: rest else e :: objInsert rest k v

/-- Exact-key lookup in a parsed object (Go `obj["k"]`). -/
def lookupJ (fields : List (String × JsonVal)) (k : String) : Option JsonVal :=
  (fields.find? (fun e => e.1 = k)).map Prod.snd

/-- Hex digit value. -/
def hexVal (c : Char) : Option Nat :=
  if '0' ≤ c ∧ c ≤ '9' then some (c.toNat - '0'.toNat)
  else if 'a' ≤ c ∧ c ≤ 'f' then some (c.toNat - 'a'.toNat + 10)
  else if 'A' ≤ c ∧ c ≤ 'F' then some (c.toNat - 'A'.toNat + 10)
  else none

/-- JSON string body, after the opening quote; returns the decoded
characters and the rest after the closing quote.  Surrogate-pair
recombination of `\uXXXX` escapes is not modelled (no claim touches
it); an invalid code unit decodes like Go to a replacement value. -/
def parseJsonString : Nat → List Char → Option (List Char × List Char)
  | 0, _ => none
  | _ + 1, [] => none
  | fuel + 1, c :: cs =>
    if c = '"' then some ([], cs)
    else if c = '\\' then
      match cs with
      | [] => none
      | e :: rest =>
        let dec : Option (Char × List Char) :=
          if e = '"' then some ('"', rest)
          else if e = '\\' then some ('\\', rest)
          else if e = '/' then some ('/', rest)
          else if e = 'b' then some ('\x08', rest)
          else if e = 'f' then some ('\x0c', rest)
          else if e = 'n' then some ('\n', rest)
          else if e = 'r' then some ('\r', rest)
          else if e = 't' then some ('\t', rest)
          else if e = 'u' then
            match rest with
            | h1 :: h2 :: h3 :: h4 :: rest2 =>
              match hexVal h1, hexVal h2, hexVal h3, hexVal h4 with
              | some a, some b, some c3, some d =>
                some (Char.ofNat (((a * 16 + b) * 16 + c3) * 16 + d), rest2)
              | _, _, _, _ => none
            | _ => none
          else none
        match dec with
        | some (ch, rest2) =>
          (parseJsonString fuel rest2).map (fun p => (ch :: p.1, p.2))
        | none => none
    else (parseJsonString fuel cs).map (fun p => (c :: p.1, p.2))

/-- JSON number lexeme starting at `s` (grammar of RFC 8259, which is
what `encoding/json` accepts): returns the lexeme and the rest. -/
def parseJsonNumber (s : List Char) : Option (List Char × List Char) :=
  let (sign, s1) := match s with
    | '-' :: t => (['-'], t)
    | t => (([] : List Char), t)
  let intDigits := s1.takeWhile Char.isDigit
  let s2 := s1.drop intDigits.length
  let intOk : Bool :=
    match intDigits with
    | [] => false
    | ['0'] => true
    | d :: _ => d ≠ '0'
  if !intOk then none else
  let (frac, s3) :=
    match s2 with
    | '.' :: t =>
      let ds := t.takeWhile Char.isDigit
      if ds.isEmpty then (none, s2) else (some ('.' :: ds), t.drop ds.length)
    | _ => (none, s2)
  match frac, s3 with
  | none, '.' :: _ => none
  | _, _ =>
  let (expPart, s4) :=
    match s3 with
    | e :: t =>
      if e = 'e' ∨ e = 'E' then
        let (esign, t1) := match t with
          | '+' :: u => (['+'], u)
          | '-' :: u => (['-'], u)
          | u => (([] : List Char), u)
        let ds := t1.takeWhile Char.isDigit
        if ds.isEmpty then (none, s3) else (some (e :: esign ++ ds), t1.drop ds.length)
      else (none, s3)
    | [] => (none, s3)
  match expPart, s4 with
  | none, e :: _ =>
    if e = 'e' ∨ e = 'E' then none
    else some (sign ++ intDigits ++ (frac.getD []) ++ [], s4)
  | _, _ => some (sign ++ intDigits ++ (frac.getD []) ++ (expPart.getD []), s4)

mutual

/-- One JSON value, leading whitespace allowed. -/
def parseJsonVal : Nat → List Char → Option (JsonVal × List Char)
  | 0, _ => none
  | fuel + 1, s =>
    match s.dropWhile isJsonWs with
    | [] => none
    | c :: cs =>
      if c = '\x7b' then
        match cs.dropWhile isJsonWs with
        | '\x7d' :: rest => some (.obj [], rest)
        | _ => (parseJsonMembers fuel [] cs).map (fun p => (.obj p.1, p.2))
      else if c = '[' then
        match cs.dropWhile isJsonWs with
        | ']' :: rest => some (.arr [], rest)
        | _ => (parseJsonItems fuel [] cs).map (fun p => (.arr p.1, p.2))
      else if c = '"' then
        (parseJsonString (cs.length + 1) cs).map (fun p => (.str (String.mk p.1), p.2))
      else if c = 't' then
        (dropLit? "rue".data cs).map (fun rest => (.bool true, rest))
      else if c = 'f' then
        (dropLit? "alse".data cs).map (fun rest => (.bool false, rest))
      else if c = 'n' then
        (dropLit? "ull".data cs).map (fun rest => (.null, rest))
      else
        (parseJsonNumber (c :: cs)).map (fun p => (.num (String.mk p.1), p.2))

/-- Object members, starting after `{` (or after a comma). -/
def parseJsonMembers (fuel : Nat) (acc : List (String × JsonVal)) (s : List Char) :
    Option (List (String × JsonVal) × List Char) :=
  match fuel with
  | 0 => none
  | fuel + 1 =>
    match s.dropWhile isJsonWs with
    | '"' :: cs =>
      match parseJsonString (cs.length + 1) cs with
      | none => none
      | some (key, r1) =>
        match r1.dropWhile isJsonWs with
        | ':' :: r2 =>
          match parseJsonVal fuel r2 with
          | none => none
          | some (v, r3) =>
            let acc := objInsert acc (String.mk key) v
            match r3.dropWhile isJsonWs with
            | ',' :: r4 => parseJsonMembers fuel acc r4
            | '\x7d' :: r4 => some (acc, r4)
            | _ => none
        | _ => none
    | _ => none

/-- Array items, starting after `[` (or after a comma). -/
def parseJsonItems (fuel : Nat) (acc : List JsonVal) (s : List Char) :
    Option (List JsonVal × List Char) :=
  match fuel with
  | 0 => none
  | fuel + 1 =>
    match parseJsonVal fuel s with
    | none => none
    | some (v, r1) =>
      match r1.dropWhile isJsonWs with
      | ',' :: r2 => parseJsonItems fuel (acc ++ [v]) r2
      | ']' :: r2 => some (acc ++ [v], r2)
      | _ => none

end

/-- `json.Unmarshal(data, &v)` for an `interface{}` target: one JSON
value, with nothing but whitespace after it. -/
def jsonParse (s : String) : Option JsonVal :=
  match parseJsonVal (2 * s.data.length + 8) s.data with
  | some (v, rest) => if rest.dropWhile isJsonWs = [] then some v else none
  | none => none


/-! ## Regex models for `ActionParser`

Each Go regexp is modelled by an explicit scanner with the same
leftmost-first semantics: `scanFor` tries the pattern at every
position from the left, and on a match resumes after the match
(`FindAllStringSubmatch`); lazy captures `(.*?)` are modelled by
`lazyThen`, which takes the shortest capture whose continuation
matches, exploring longer captures only when the continuation fails
(exactly the backtracking order of a leftmost-first engine).  Patterns
compiled without `(?s)` use `lazyThenNoNl`, where the dot does not
match a newline. -/

/-- Shortest split `s = cap ++ r` such that `tail r` succeeds; the
continuation result is returned with the capture. -/
def lazyThen {β : Type} (tail : List Char → Option β) : List Char → Option (List Char × β)
  | [] => (tail []).map (fun b => (([] : List Char), b))
  | c :: cs =>
    match tail (c :: cs) with
    | some b => some ([], b)
    | none => (lazyThen tail cs).map (fun p => (c :: p.1, p.2))

/-- `lazyThen` for captures made with a dot that does not match `\n`
(regexes compiled without the `s` flag). -/
def lazyThenNoNl {β : Type} (tail : List Char → Option β) : List Char → Option (List Char × β)
  | [] => (tail []).map (fun b => (([] : List Char), b))
  | c :: cs =>
    match tail (c :: cs) with
    | some b => some ([], b)
    | none =>
      if c = '\n' then none
      else (lazyThenNoNl tail cs).map (fun p => (c :: p.1, p.2))

/-- `\s*` of the regexes (greedy, always followed by a non-space
literal in these patterns, so consuming the maximal run is exact). -/
def dropWsRe (s : List Char) : List Char :=
  s.dropWhile isReSpace

/-- All matches of a pattern, leftmost first, resuming after each
match; on failure the start position advances by one character
(`FindAllStringSubmatch(response, -1)`).  The callers pass
`fuel ≥ length + 1`; positions advance strictly, so that fuel is never
exhausted. -/
def scanFor {α : Type} (matchAt : List Char → Option (α × List Char)) :
    Nat → List Char → List α
  | 0, _ => []
  | _ + 1, [] => []
  | fuel + 1, c :: cs =>
    match matchAt (c :: cs) with
    | some (a, rest) => a :: scanFor matchAt fuel rest
    | none => scanFor matchAt fuel cs

/-- First match of a pattern, leftmost (`FindStringSubmatch`). -/
def firstMatch {α : Type} (matchAt : List Char → Option α) :
    Nat → List Char → Option α
  | 0, _ => none
  | _ + 1, [] => matchAt []
  | fuel + 1, c :: cs =>
    match matchAt (c :: cs) with
    | some a => some a
    | none => firstMatch matchAt fuel cs

/-- TrimSpace a capture and package it as a `String`. -/
def capStr (l : List Char) : String :=
  String.mk (goTrimChars l)

/-- Continuation after the `<content>` capture of the create_file
pattern: `</content>\s*</create_file>`. -/
def cfTail2 (q : List Char) : Option (List Char) :=
  (dropLit? "</content>".data q).bind fun q1 =>
    dropLit? "</create_file>".data (dropWsRe q1)

/-- Continuation after the `<path>` capture of the create_file pattern:
`</path>\s*<content>(.*?)` followed by `cfTail2`. -/
def cfTail1 (r : List Char) : Option (List Char × List Char) :=
  (dropLit? "</path>".data r).bind fun r1 =>
    (dropLit? "<content>".data (dropWsRe r1)).bind fun r2 =>
      lazyThen cfTail2 r2

/-- `(?s)<create_file>\s*<path>(.*?)</path>\s*<content>(.*?)</content>\s*</create_file>` -/
def matchCreateFile (s : List Char) : Option (Action × List Char) :=
  (dropLit? "<create_file>".data s).bind fun s1 =>
    (dropLit? "<path>".data (dropWsRe s1)).bind fun s2 =>
      (lazyThen cfTail1 s2).map fun p =>
        (Action.createFile (capStr p.1) (capStr p.2.1), p.2.2)

/-- Continuation after the `<description>` capture:
`</description>\s*</execute_command>`. -/
def exTail2 (q : List Char) : Option (List Char) :=
  (dropLit? "</description>".data q).bind fun q1 =>
    dropLit? "</execute_command>".data (dropWsRe q1)

/-- Continuation after the `<command>` capture:
`</command>(?:\s*<description>(.*?)</description>)?\s*</execute_command>`;
the optional group is preferred when it matches. -/
def exTail1 (r : List Char) : Option (Option (List Char) × List Char) :=
  (dropLit? "</command>".data r).bind fun r1 =>
    match (dropLit? "<description>".data (dropWsRe r1)).bind (lazyThen exTail2) with
    | some (d, rest) => some (some d, rest)
    | none =>
      (dropLit? "</execute_command>".data (dropWsRe r1)).map fun rest => (none, rest)

/-- `(?s)<execute_command>\s*<command>(.*?)</command>(?:\s*<description>(.*?)</description>)?\s*</execute_command>`;
an absent description group yields an empty `match[2]`, hence an empty
description after trimming, as in the Go code. -/
def matchExecCmd (s : List Char) : Option (Action × List Char) :=
  (dropLit? "<execute_command>".data s).bind fun s1 =>
    (dropLit? "<command>".data (dropWsRe s1)).bind fun s2 =>
      (lazyThen exTail1 s2).map fun p =>
        (Action.executeCommand (capStr p.1)
          (match p.2.1 with | some d => capStr d | none => ""), p.2.2)

/-- Continuation after the `<path>` capture of the create_directory
pattern: `</path>\s*</create_directory>`. -/
def dirTail (r : List Char) : Option (List Char) :=
  (dropLit? "</path>".data r).bind fun r1 =>
    dropLit? "</create_directory>".data (dropWsRe r1)

/-- `<create_directory>\s*<path>(.*?)</path>\s*</create_directory>`
(no `(?s)`: the path capture cannot span a newline). -/
def matchCreateDir (s : List Char) : Option (Action × List Char) :=
  (dropLit? "<create_directory>".data s).bind fun s1 =>
    (dropLit? "<path>".data (dropWsRe s1)).bind fun s2 =>
      (lazyThenNoNl dirTail s2).map fun p =>
        (Action.createDirectory (capStr p.1), p.2)

/-- Continuation after the `<replace>` capture:
`</replace>\s*</modify_file>`. -/
def mfTail2 (q : List Char) : Option (List Char) :=
  (dropLit? "</replace>".data q).bind fun q1 =>
    dropLit? "</modify_file>".data (dropWsRe q1)

/-- Continuation after the `<search>` capture:
`</search>\s*<replace>(.*?)` followed by `mfTail2`. -/
def mfTail1 (r : List Char) : Option (List Char × List Char) :=
  (dropLit? "</search>".data r).bind fun r1 =>
    (dropLit? "<replace>".data (dropWsRe r1)).bind fun r2 =>
      lazyThen mfTail2 r2

/-- Continuation after the `<path>` capture of the modify_file pattern:
`</path>\s*<search>(.*?)` followed by `mfTail1`. -/
def mfTail0 (t : List Char) : Option (List Char × (List Char × List Char)) :=
  (dropLit? "</path>".data t).bind fun t1 =>
    (dropLit? "<search>".data (dropWsRe t1)).bind fun t2 =>
      lazyThen mfTail1 t2

/-- `(?s)<modify_file>\s*<path>(.*?)</path>\s*<search>(.*?)</search>\s*<replace>(.*?)</replace>\s*</modify_file>` -/
def matchModifyFile (s : List Char) : Option (Action × List Char) :=
  (dropLit? "<modify_file>".data s).bind fun s1 =>
    (dropLit? "<path>".data (dropWsRe s1)).bind fun s2 =>
      (lazyThen mfTail0 s2).map fun p =>
        (Action.modifyFile (capStr p.1) (capStr p.2.1) (capStr p.2.2.1), p.2.2.2)

/-- Continuation after the `<path>` capture of the read_file pattern:
`</path>\s*</read_file>`. -/
def rfTail (r : List Char) : Option (List Char) :=
  (dropLit? "</path>".data r).bind fun r1 =>
    dropLit? "</read_file>".data (dropWsRe r1)

/-- `<read_file>\s*<path>(.*?)</path>\s*</read_file>` (no `(?s)`). -/
def matchReadFile (s : List Char) : Option (Action × List Char) :=
  (dropLit? "<read_file>".data s).bind fun s1 =>
    (dropLit? "<path>".data (dropWsRe s1)).bind fun s2 =>
      (lazyThenNoNl rfTail s2).map fun p =>
        (Action.readFile (capStr p.1), p.2)


/-! ## Fenced-block patterns -/

/-- Tail of the json-block pattern after an object capture:
`\}\s*` followed by the closing fence. -/
def jsonObjTail (q : List Char) : Option (List Char) :=
  (dropLit? "\x7d".data q).bind fun q1 =>
    dropLit? "```".data (dropWsRe q1)

/-- Tail of the json-block pattern after an array capture. -/
def jsonArrTail (q : List Char) : Option (List Char) :=
  (dropLit? "]".data q).bind fun q1 =>
    dropLit? "```".data (dropWsRe q1)

/-- ``(?s)```(?:json)?\s*(\{.*?\}|\[.*?\])\s*``` `` — returns the
captured block (braces included) and the rest after the closing fence.
If stripping a literal `json` does not lead to `{` or `[`, neither does
keeping it, so trying the stripped form first is faithful. -/
def jsonBlockAt (s : List Char) : Option (List Char × List Char) :=
  (dropLit? "```".data s).bind fun s1 =>
    let s2 := match dropLit? "json".data s1 with
      | some x => x
      | none => s1
    match dropWsRe s2 with
    | '\x7b' :: body =>
      (lazyThen jsonObjTail body).map fun p =>
        ('\x7b' :: p.1 ++ ['\x7d'], p.2)
    | '[' :: body =>
      (lazyThen jsonArrTail body).map fun p =>
        ('[' :: p.1 ++ [']'], p.2)
    | _ => none

/-- ``(?s)```(\w+)?\s*(.*?)\s*``` `` — returns the raw language capture
and the body capture, plus the rest after the closing fence. -/
def fencedAt (s : List Char) : Option ((List Char × List Char) × List Char) :=
  (dropLit? "```".data s).bind fun s1 =>
    let lang := s1.takeWhile isWordChar
    let s2 := s1.drop lang.length
    (lazyThen (fun q => dropLit? "```".data (dropWsRe q)) (dropWsRe s2)).map fun p =>
      ((lang, p.1), p.2)

/-! ## `@create-file:` marker patterns -/

/-- Greedy `(\S+)` with a continuation: the longest run of non-space
characters (possibly giving back characters) such that `ok` holds on
the remainder; returns the capture (may be empty — callers require a
non-empty one) and the remainder. -/
def longestNonSpace (ok : List Char → Bool) : List Char → Option (List Char × List Char)
  | [] => if ok [] then some ([], []) else none
  | c :: cs =>
    if isReSpace c then
      if ok (c :: cs) then some ([], c :: cs) else none
    else
      match longestNonSpace ok cs with
      | some p => some (c :: p.1, p.2)
      | none => if ok (c :: cs) then some ([], c :: cs) else none

/-- `(?i)<!--\s*@create-file:\s*(\S+)\s*-->` at one position. -/
def htmlMarkerAt (s : List Char) : Option (List Char) :=
  (dropLit? "<!--".data s).bind fun s1 =>
    (dropLitCI? "@create-file:".data (dropWsRe s1)).bind fun s2 =>
      (longestNonSpace (fun r => (dropLit? "-->".data (dropWsRe r)).isSome)
          (dropWsRe s2)).bind fun p =>
        if p.1.isEmpty then none else some p.1

/-- `(?s)/\*\s*@create-file:\s*(\S+)\s*\*/` at one position. -/
def blockMarkerAt (s : List Char) : Option (List Char) :=
  (dropLit? "/*".data s).bind fun s1 =>
    (dropLit? "@create-file:".data (dropWsRe s1)).bind fun s2 =>
      (longestNonSpace (fun r => (dropLit? "*/".data (dropWsRe r)).isSome)
          (dropWsRe s2)).bind fun p =>
        if p.1.isEmpty then none else some p.1

/-- `[ \t]*//\s*@create-file:\s*(\S+)` at one line start. -/
def lineMarkerAt (s : List Char) : Option (List Char) :=
  (dropLit? "//".data (s.dropWhile (fun c => c = ' ' || c = '\t'))).bind fun s1 =>
    (dropLit? "@create-file:".data (dropWsRe s1)).bind fun s2 =>
      (longestNonSpace (fun _ => true) (dropWsRe s2)).bind fun p =>
        if p.1.isEmpty then none else some p.1

/-- `[ \t]*#\s*@create-file:\s*(\S+)` at one line start. -/
def hashMarkerAt (s : List Char) : Option (List Char) :=
  (dropLit? "#".data (s.dropWhile (fun c => c = ' ' || c = '\t'))).bind fun s1 =>
    (dropLit? "@create-file:".data (dropWsRe s1)).bind fun s2 =>
      (longestNonSpace (fun _ => true) (dropWsRe s2)).bind fun p =>
        if p.1.isEmpty then none else some p.1

/-- Skip to just after the next newline (for `(?m)^` anchors). -/
def dropToAfterNl : List Char → Option (List Char)
  | [] => none
  | c :: cs => if c = '\n' then some cs else dropToAfterNl cs

/-- First match of a `(?m)^`-anchored pattern: try each line start. -/
def firstLineMatch {α : Type} (matchAt : List Char → Option α) :
    Nat → List Char → Option α
  | 0, _ => none
  | fuel + 1, s =>
    match matchAt s with
    | some a => some a
    | none =>
      match dropToAfterNl s with
      | some rest => firstLineMatch matchAt fuel rest
      | none => none

/-- The `switch lang` of the fenced-block pass: which marker pattern is
searched, per language tag. -/
def findMarker (lang : String) (body : List Char) : Option (List Char) :=
  if lang = "html" then firstMatch htmlMarkerAt (body.length + 1) body
  else if lang = "css" ∨ lang = "js" ∨ lang = "javascript" ∨ lang = "typescript"
      ∨ lang = "java" ∨ lang = "c" ∨ lang = "cpp" ∨ lang = "go" then
    match firstMatch blockMarkerAt (body.length + 1) body with
    | some f => some f
    | none => firstLineMatch lineMarkerAt (body.length + 1) body
  else firstLineMatch hashMarkerAt (body.length + 1) body

/-! ## JSON-fallback interpretation (the `switch` on the parsed value) -/

/-- One object of a file array: prefer `path` over `name` (string type
assertion — a present key of the wrong type falls through to the
fallback), prefer `content` over `body`; emit only when both are
non-empty.  The path is trimmed, the content is not. -/
def fileObjAction (fields : List (String × JsonVal)) : Option Action :=
  let path := match lookupJ fields "path" with
    | some (.str s) => s
    | _ => match lookupJ fields "name" with
      | some (.str s) => s
      | _ => ""
  let content := match lookupJ fields "content" with
    | some (.str s) => s
    | _ => match lookupJ fields "body" with
      | some (.str s) => s
      | _ => ""
  if path ≠ "" ∧ content ≠ "" then some (.createFile (goTrim path) content)
  else none

/-- A JSON array interpreted as file-creation instructions. -/
def arrayFileActions (items : List JsonVal) : List Action :=
  items.filterMap fun it =>
    match it with
    | .obj fields => fileObjAction fields
    | _ => none

/-- The single-object form under a `create_file` key: only the `path`
and `content` keys are probed (no `name`/`body` fallback). -/
def singleFileAction : JsonVal → Option Action
  | .obj fields =>
    let path := match lookupJ fields "path" with
      | some (.str s) => s
      | _ => ""
    let content := match lookupJ fields "content" with
      | some (.str s) => s
      | _ => ""
    if path ≠ "" ∧ content ≠ "" then some (.createFile (goTrim path) content)
    else none
  | _ => none

/-- One top-level key of a JSON object. -/
def objKeyActions (key : String) (v : JsonVal) : List Action :=
  let lk := toLowerStr key
  if lk = "create_file" then
    match singleFileAction v with
    | some a => [a]
    | none => []
  else if lk = "create_files" ∨ lk = "files" then
    match v with
    | .arr items => arrayFileActions items
    | _ => []
  else []

/-- The `switch v := parsed.(type)` over an unmarshalled value. -/
def jsonValActions : JsonVal → List Action
  | .arr items => arrayFileActions items
  | .obj fields => fields.foldl (fun acc kv => acc ++ objKeyActions kv.1 kv.2) []
  | _ => []

/-- Actions of one captured json block: trim, unmarshal, interpret;
an unmarshal error yields nothing. -/
def jsonBlockActions (block : List Char) : List Action :=
  match jsonParse (capStr block) with
  | some v => jsonValActions v
  | none => []

/-! ## Fenced-code emission (the `nameCount` loop) -/

/-- `nameCount[k]`. -/
def lookupCount (m : List (String × Nat)) (k : String) : Nat :=
  ((m.find? (fun e => e.1 = k)).map Prod.snd).getD 0

/-- `nameCount[k]++`. -/
def bumpCount : List (String × Nat) → String → List (String × Nat)
  | [], k => [(k, 1)]
  | e :: rest, k => if e.1 = k then (k, e.2 + 1) :: rest else e :: bumpCount rest k

/-- One iteration of the fenced-block loop: find a marker for the
block's language, sanitize the filename, make it unique with a numeric
suffix, and append a CreateFile action whose content is the block
body. -/
def fencedStep (st : List Action × List (String × Nat)) (blk : List Char × List Char) :
    List Action × List (String × Nat) :=
  let lang := toLowerStr (goTrim (String.mk blk.1))
  let body := blk.2
  match findMarker lang body with
  | none => st
  | some f =>
    let filename := goReplaceAll (goTrim (String.mk f)) ".." ""
    let base := filename
    let cnt := lookupCount st.2 base
    let filename :=
      if cnt > 0 then
        goTrimSuffix base (filepathExt base) ++ "." ++ toString cnt ++ filepathExt base
      else filename
    (st.1 ++ [Action.createFile filename (String.mk body)], bumpCount st.2 base)

/-! ## `ActionParser.Parse` -/

/-- `Parse` (current variant): the json-fallback pass, the marked
fenced-code pass, then the five tag passes, all appending to one
actions slice. -/
def parse (response : String) : List Action :=
  let cs := response.data
  let fuel := cs.length + 1
  let acts : List Action := []
  let acts := (scanFor jsonBlockAt fuel cs).foldl
    (fun acc blk => acc ++ jsonBlockActions blk) acts
  let st := (scanFor fencedAt fuel cs).foldl fencedStep (acts, [])
  let acts := st.1
  let acts := (scanFor matchCreateFile fuel cs).foldl (fun acc a => acc ++ [a]) acts
  let acts := (scanFor matchExecCmd fuel cs).foldl (fun acc a => acc ++ [a]) acts
  let acts := (scanFor matchCreateDir fuel cs).foldl (fun acc a => acc ++ [a]) acts
  let acts := (scanFor matchModifyFile fuel cs).foldl (fun acc a => acc ++ [a]) acts
  let acts := (scanFor matchReadFile fuel cs).foldl (fun acc a => acc ++ [a]) acts
  acts

/-- The json-fallback pass on its own. -/
def jsonPass (r : String) : List Action :=
  ((scanFor jsonBlockAt (r.data.length + 1) r.data).map jsonBlockActions).flatten

/-- The fenced-code blocks of a response. -/
def fencedBlocksOf (r : String) : List (List Char × List Char) :=
  scanFor fencedAt (r.data.length + 1) r.data

/-- The fenced-code pass on its own. -/
def fencedPass (r : String) : List Action :=
  ((fencedBlocksOf r).foldl fencedStep ([], [])).1

/-- One tag pass on its own. -/
def tagPass (matchAt : List Char → Option (Action × List Char)) (r : String) :
    List Action :=
  scanFor matchAt (r.data.length + 1) r.data


/-! ## Streaming (pkg/ollama client loop and Agent.SendMessage)

The chunk-processing loop shared by `StreamGenerateWithContext` /
`StreamChatWithContext`: the HTTP scanner's lines become a `List
String`; transport and cancellation errors are outside the model (the
claims proved here concern explicit error chunks).  The per-chunk
callback may reject a chunk by returning `some msg`. -/

/-- The anonymous chunk struct `{Response, Delta, Done, Error}`. -/
structure StreamChunk where
  response : String
  delta : String
  done : Bool
  error : String
deriving Repr

/-- `part`: prefer `Response`, fall back to `Delta`. -/
def chunkPart (c : StreamChunk) : String :=
  if c.response ≠ "" then c.response else c.delta

/-- Last object entry whose key matches a struct field name
case-insensitively (`encoding/json` field matching; the tags here are
lower-case). -/
def lastFoldMatch (fields : List (String × JsonVal)) (name : String) : Option JsonVal :=
  fields.foldl (fun acc kv => if toLowerStr kv.1 = name then some kv.2 else acc) none

/-- Unmarshalling a JSON value into a string field: absent or null
leaves the zero value, a string sets it, any other type is an
unmarshal error. -/
def getStrField (fields : List (String × JsonVal)) (name : String) : Option String :=
  match lastFoldMatch fields name with
  | none => some ""
  | some .null => some ""
  | some (.str s) => some s
  | some _ => none

/-- Unmarshalling into a bool field. -/
def getBoolField (fields : List (String × JsonVal)) (name : String) : Option Bool :=
  match lastFoldMatch fields name with
  | none => some false
  | some .null => some false
  | some (.bool b) => some b
  | some _ => none

/-- A JSON number lexeme acceptable for an integer field (decoded via
`strconv.ParseInt`: an optional sign and digits only). -/
def isIntLit (raw : String) : Bool :=
  match raw.data with
  | '-' :: ds => !ds.isEmpty && ds.all Char.isDigit
  | ds => !ds.isEmpty && ds.all Char.isDigit

/-- Unmarshalling into an `int`/`int64` field (value unused by the
model, only success matters). -/
def getIntField (fields : List (String × JsonVal)) (name : String) : Option Unit :=
  match lastFoldMatch fields name with
  | none => some ()
  | some .null => some ()
  | some (.num raw) => if isIntLit raw then some () else none
  | some _ => none

/-- Unmarshalling into the `Context []int` field. -/
def getIntArrField (fields : List (String × JsonVal)) (name : String) : Option Unit :=
  match lastFoldMatch fields name with
  | none => some ()
  | some .null => some ()
  | some (.arr items) =>
    if items.all (fun it => match it with | .num raw => isIntLit raw | _ => false)
    then some () else none
  | some _ => none

/-- `json.Unmarshal(line, &chunk)` for the four-field chunk struct:
succeeds on a JSON object with correctly typed fields, or on `null`
(zero chunk); anything else is an error and the line is treated as raw
text by the loop. -/
def parseChunkLine (t : String) : Option StreamChunk :=
  match jsonParse t with
  | some .null => some ⟨"", "", false, ""⟩
  | some (.obj fields) =>
    match getStrField fields "response", getStrField fields "delta",
        getBoolField fields "done", getStrField fields "error" with
    | some r, some d, some dn, some e => some ⟨r, d, dn, e⟩
    | _, _, _, _ => none
  | _ => none

/-- `json.Unmarshal(chunk, &lastChunk)` for `ollama.GenerateResponse`
(the double parse inside `SendMessage`); only the `Response` field is
used downstream, but every field must unmarshal for the parse to
succeed. -/
def parseGenLine (s : String) : Option String :=
  match jsonParse s with
  | some .null => some ""
  | some (.obj fields) =>
    match getStrField fields "model", getStrField fields "response",
        getBoolField fields "done", getIntArrField fields "context",
        getStrField fields "created_at" with
    | some _, some r, some _, some _, some _ =>
      match getIntField fields "total_duration", getIntField fields "load_duration",
          getIntField fields "prompt_eval_count", getIntField fields "prompt_eval_duration",
          getIntField fields "eval_count", getIntField fields "eval_duration" with
      | some _, some _, some _, some _, some _, some _ => some r
      | _, _, _, _, _, _ => none
    | _, _, _, _, _ => none
  | _ => none

/-- Outcome of the streaming loop. -/
inductive StreamResult where
  | ok
  | streamErr (msg : String)
  | cbErr (msg : String)
deriving DecidableEq, Repr

/-- The line loop of `StreamGenerateWithContext` /
`StreamChatWithContext`: trim; skip empty lines; on a structured chunk
check the error field before anything else, then invoke the callback
with the part, then honour the done flag; otherwise pass the trimmed
line raw to the callback.  Returns the list of strings passed to the
callback, in order, and the result. -/
def streamLoop (cb : String → Option String) : List String → List String × StreamResult
  | [] => ([], .ok)
  | line :: rest =>
    let t := goTrim line
    if t = "" then streamLoop cb rest
    else
      match parseChunkLine t with
      | some c =>
        if c.error ≠ "" then ([], .streamErr ("stream error: " ++ c.error))
        else if chunkPart c ≠ "" then
          match cb (chunkPart c) with
          | some e => ([chunkPart c], .cbErr e)
          | none =>
            if c.done then ([chunkPart c], .ok)
            else
              let r := streamLoop cb rest
              (chunkPart c :: r.1, r.2)
        else if c.done then ([], .ok)
        else streamLoop cb rest
      | none =>
        match cb t with
        | some e => ([t], .cbErr e)
        | none =>
          let r := streamLoop cb rest
          (t :: r.1, r.2)

/-- The transform applied by `wrappedOnChunkWithStats` to each part
before accumulating and forwarding it: re-parse it as a
`GenerateResponse` and use its `Response` field, else pass it raw. -/
def genTransform (s : String) : String :=
  match parseGenLine s with
  | some r => r
  | none => s

/-- `Agent.SendMessage`, reduced to the behaviour visible to these
claims: stream the lines, accumulating the transformed parts; a stream
or callback error is wrapped and returned before any extraction;
otherwise the accumulated response is parsed for actions. -/
def sendMessage (userCb : String → Option String) (lines : List String) :
    Except String (List Action) :=
  let r := streamLoop (fun s => userCb (genTransform s)) lines
  match r.2 with
  | .ok => .ok (parse (String.join (r.1.map genTransform)))
  | .streamErr m => .error ("failed to stream chat: " ++ m)
  | .cbErr m => .error ("failed to stream chat: " ++ m)

/-- A line whose processing falls through to the next loop iteration:
empty after trimming, or a structured chunk with no error, done not
set, and a part the callback accepts, or a raw line the callback
accepts. -/
def passiveLine (cb : String → Option String) (l : String) : Prop :=
  goTrim l = "" ∨
    (match parseChunkLine (goTrim l) with
     | some c => c.error = "" ∧ c.done = false ∧
         (chunkPart c = "" ∨ cb (chunkPart c) = none)
     | none => cb (goTrim l) = none)


/-! ## Basic lemmas about the string models -/

theorem isPre_append (sub b : List Char) : isPre sub (sub ++ b) = true := by
  induction sub with
  | nil => rfl
  | cons a as ih => simp [isPre, ih]

theorem isPre_drop {sub l : List Char} (h : isPre sub l = true) :
    sub ++ l.drop sub.length = l := by
  induction sub generalizing l with
  | nil => simp
  | cons a as ih =>
    cases l with
    | nil => simp [isPre] at h
    | cons b bs =>
      simp only [isPre, Bool.and_eq_true, decide_eq_true_eq] at h
      obtain ⟨rfl, h2⟩ := h
      simpa using ih h2

theorem replaceFirstChars_self (sub l : List Char) :
    replaceFirstChars sub sub l = l := by
  induction l with
  | nil =>
    by_cases h : sub.isEmpty
    · simp only [replaceFirstChars, h, if_true]
      simpa [List.isEmpty_iff] using h
    · simp [replaceFirstChars, h]
  | cons c cs ih =>
    by_cases h : isPre sub (c :: cs) = true
    · simp only [replaceFirstChars, h, if_true]
      exact isPre_drop h
    · simp only [replaceFirstChars, h]
      simp [ih]

theorem replaceFirstChars_not_occurs {sub l : List Char} (repl : List Char)
    (h : occursIn sub l = false) : replaceFirstChars sub repl l = l := by
  induction l with
  | nil =>
    simp only [occursIn] at h
    simp [replaceFirstChars, h]
  | cons c cs ih =>
    simp only [occursIn, Bool.or_eq_false_iff] at h
    simp only [replaceFirstChars, h.1]
    simp [ih h.2]

theorem replaceFirstChars_first_occ {sub : List Char} (repl : List Char)
    {a b : List Char}
    (hfirst : ∀ i, i < a.length → isPre sub ((a ++ sub ++ b).drop i) = false) :
    replaceFirstChars sub repl (a ++ sub ++ b) = a ++ repl ++ b := by
  induction a with
  | nil =>
    simp only [List.nil_append]
    have hp : isPre sub (sub ++ b) = true := isPre_append sub b
    cases hs : sub ++ b with
    | nil =>
      rcases List.append_eq_nil.mp hs with ⟨rfl, rfl⟩
      simp [replaceFirstChars]
    | cons x xs =>
      rw [← hs]
      have : replaceFirstChars sub repl (sub ++ b) =
          repl ++ (sub ++ b).drop sub.length := by
        rw [hs]
        rw [hs] at hp
        simp [replaceFirstChars, hp]
      rw [this, List.drop_left]
  | cons x a2 ih =>
    have h0 : isPre sub (x :: (a2 ++ (sub ++ b))) = false := by
      have h := hfirst 0 (by simp)
      simpa [List.append_assoc] using h
    have ih2 := ih (fun i hi => by
      have h := hfirst (i + 1) (by simpa using Nat.succ_lt_succ hi)
      simpa using h)
    simp only [List.cons_append, List.append_assoc] at ih2 ⊢
    simp [replaceFirstChars, h0, ih2]

theorem fsRead_fsWrite (fs : List (String × String)) (p v : String) :
    fsRead (fsWrite fs p v) p = some v := by
  induction fs with
  | nil => simp [fsRead, fsWrite, List.find?]
  | cons e rest ih =>
    by_cases h : e.1 = p
    · simp [fsRead, fsWrite, h, List.find?]
    · simp only [fsWrite, h, if_false]
      simpa [fsRead, List.find?, h] using ih

theorem goFieldsAux_all_space {l : List Char} (h : ∀ c ∈ l, isGoSpace c = true) :
    goFieldsAux [] l = [] := by
  induction l with
  | nil => rfl
  | cons c cs ih =>
    have hc : isGoSpace c = true := h c (by simp)
    simp only [goFieldsAux, hc, if_true, List.isEmpty_nil]
    exact ih (fun c hc => h c (by simp [hc]))

/-! ## Claim C2 -/

/-- C2: the spec and the repository's own documentation state that a
path containing `..` fails validation for every path-bearing action
variant, but the code's `ReadFileAction.Validate` and
`ModifyFileAction.Validate` only check non-emptiness: a traversal path
passes them, while the same path is rejected by the CreateFile and
CreateDirectory validators. -/
theorem validate_traversal_gap :
    strContains "../secret.txt" ".." = true ∧
    validate (Action.readFile "../secret.txt") = none ∧
    validate (Action.modifyFile "../secret.txt" "a" "b") = none ∧
    validate (Action.createFile "../secret.txt" "x") =
      some "file path cannot contain .." ∧
    validate (Action.createDirectory "../secret.txt") =
      some "directory path cannot contain .." :=
  ⟨rfl, rfl, rfl, rfl, rfl⟩

/-! ## Claim C5 -/

/-- C5: a ModifyFile action whose search text does not occur in the
target file fails with the not-found error and returns the world
unchanged — in particular the file content is untouched. -/
theorem modifyFile_absent_search_no_write
    (cmdOk : String → Bool) (wd p s r : String) (w : World) (content : String)
    (hread : fsRead w.files (joinPath wd p) = some content)
    (habs : strContains content s = false) :
    execAction cmdOk wd (.modifyFile p s r) w =
      (some ("search string not found in file " ++ joinPath wd p), w) := by
  have habs' : occursIn s.data content.data = false := habs
  have hrep : goReplaceFirst content s r = content :=
    String.ext (replaceFirstChars_not_occurs r.data habs')
  simp [execAction, hread, hrep]

/-- Witness for C5 at a concrete world. -/
theorem modifyFile_absent_search_no_write_witness :
    execAction (fun _ => true) "d" (.modifyFile "f.txt" "xyz" "q")
        ⟨[("d/f.txt", "hello")], []⟩ =
      (some "search string not found in file d/f.txt",
        ⟨[("d/f.txt", "hello")], []⟩) :=
  modifyFile_absent_search_no_write (fun _ => true) "d" "f.txt" "xyz" "q"
    ⟨[("d/f.txt", "hello")], []⟩ "hello" rfl rfl

/-! ## Claim C9 -/

/-- C9: when the replacement text equals the search text, `Execute`
reports the not-found failure and leaves the file unchanged even though
the search text occurs in the file, because absence is detected by
comparing the content before and after the replacement. -/
theorem modifyFile_replace_equals_search
    (cmdOk : String → Bool) (wd p s : String) (w : World) (content : String)
    (hread : fsRead w.files (joinPath wd p) = some content)
    (hocc : strContains content s = true) :
    execAction cmdOk wd (.modifyFile p s s) w =
      (some ("search string not found in file " ++ joinPath wd p), w) := by
  have hrep : goReplaceFirst content s s = content :=
    String.ext (replaceFirstChars_self s.data content.data)
  simp [execAction, hread, hrep]

/-- Witness for C9: the search text `ell` does occur in `hello`. -/
theorem modifyFile_replace_equals_search_witness :
    execAction (fun _ => true) "d" (.modifyFile "f.txt" "ell" "ell")
        ⟨[("d/f.txt", "hello")], []⟩ =
      (some "search string not found in file d/f.txt",
        ⟨[("d/f.txt", "hello")], []⟩) :=
  modifyFile_replace_equals_search (fun _ => true) "d" "f.txt" "ell"
    ⟨[("d/f.txt", "hello")], []⟩ "hello" rfl rfl

/-! ## Claim C10 -/

/-- C10: a command that is non-empty but all whitespace passes
`Validate` (which only compares against the empty string), yet
`Execute` fails with the empty-command error before any subprocess is
considered — the result does not depend on the subprocess oracle. -/
theorem whitespace_command_validates_but_fails
    (cmdOk : String → Bool) (wd cmd desc : String) (w : World)
    (hne : cmd ≠ "") (hws : ∀ c ∈ cmd.data, isGoSpace c = true) :
    validate (.executeCommand cmd desc) = none ∧
    execAction cmdOk wd (.executeCommand cmd desc) w = (some "empty command", w) := by
  constructor
  · simp [validate, hne]
  · have hf : goFields cmd = [] := by
      simp [goFields, goFieldsAux_all_space hws]
    simp [execAction, hf]

/-- Witness for C10 at the single-space command. -/
theorem whitespace_command_validates_but_fails_witness :
    validate (.executeCommand " " "x") = none ∧
    execAction (fun _ => true) "d" (.executeCommand " " "x") ⟨[], []⟩ =
      (some "empty command", ⟨[], []⟩) :=
  whitespace_command_validates_but_fails (fun _ => true) "d" " " "x" ⟨[], []⟩
    (by decide) (by decide)

/-! ## Claim C6 -/

/-- C6: writing a file and then modifying it at a search text whose
first occurrence is at offset `a.length` (no occurrence starts
earlier) succeeds and replaces exactly that occurrence; the suffix `b`
— which carries every later occurrence — is preserved verbatim. -/
theorem createFile_then_modifyFile_replaces_first_occurrence
    (cmdOk : String → Bool) (wd p c s r : String) (w : World) (a b : List Char)
    (hsplit : c.data = a ++ s.data ++ b)
    (hfirst : ∀ i, i < a.length → isPre s.data (c.data.drop i) = false)
    (hsecond : occursIn s.data b = true)
    (hne : r ≠ s) :
    (execAction cmdOk wd (.createFile p c) w).1 = none ∧
    (execAction cmdOk wd (.modifyFile p s r)
        (execAction cmdOk wd (.createFile p c) w).2).1 = none ∧
    fsRead (execAction cmdOk wd (.modifyFile p s r)
        (execAction cmdOk wd (.createFile p c) w).2).2.files (joinPath wd p) =
      some (String.mk (a ++ r.data ++ b)) := by
  have hread : fsRead (fsWrite w.files (joinPath wd p) c) (joinPath wd p) = some c :=
    fsRead_fsWrite w.files (joinPath wd p) c
  have hrep : goReplaceFirst c s r = String.mk (a ++ r.data ++ b) := by
    apply String.ext
    show replaceFirstChars s.data r.data c.data = a ++ r.data ++ b
    rw [hsplit]
    exact replaceFirstChars_first_occ r.data
      (fun i hi => by rw [← hsplit]; exact hfirst i hi)
  have hneq : ¬ (String.mk (a ++ r.data ++ b) = c) := by
    intro he
    apply hne
    have hd : a ++ r.data ++ b = a ++ s.data ++ b := by
      have := congrArg String.data he
      simpa [hsplit] using this
    have : r.data = s.data := by
      have h2 := List.append_cancel_right hd
      exact List.append_cancel_left h2
    exact String.ext this
  have hneq2 : ¬ (String.mk (a ++ (r.data ++ b)) = c) := by
    simpa [List.append_assoc] using hneq
  refine ⟨rfl, ?_, ?_⟩
  · simp [execAction, hread, hrep, hneq2]
  · simp only [execAction, hread, hrep]
    simp only [List.append_assoc] at hneq2 ⊢
    simp only [hneq2, if_false]
    exact fsRead_fsWrite _ _ _

/-- Witness for C6: content `XYXY`, search `XY` (two occurrences),
replacement `Z`; only the first occurrence is replaced. -/
theorem createFile_then_modifyFile_replaces_first_occurrence_witness :
    (execAction (fun _ => true) "d" (.createFile "f" "XYXY") ⟨[], []⟩).1 = none ∧
    (execAction (fun _ => true) "d" (.modifyFile "f" "XY" "Z")
        (execAction (fun _ => true) "d" (.createFile "f" "XYXY") ⟨[], []⟩).2).1 = none ∧
    fsRead (execAction (fun _ => true) "d" (.modifyFile "f" "XY" "Z")
        (execAction (fun _ => true) "d" (.createFile "f" "XYXY") ⟨[], []⟩).2).2.files
        (joinPath "d" "f") =
      some "ZXY" :=
  createFile_then_modifyFile_replaces_first_occurrence (fun _ => true) "d" "f"
    "XYXY" "XY" "Z" ⟨[], []⟩ [] "XY".data rfl
    (fun i hi => absurd hi (by simp)) rfl (by decide)

/-! ## Claim C1 -/

theorem executeActionsAux_append (cmdOk : String → Bool) (wd : String)
    (pre post : List Action) :
    ∀ (i : Nat) (w0 : World),
      executeActionsAux cmdOk wd i (pre ++ post) w0 =
        ((executeActionsAux cmdOk wd i pre w0).1 ++
          (executeActionsAux cmdOk wd (i + pre.length) post
            (executeActionsAux cmdOk wd i pre w0).2).1,
         (executeActionsAux cmdOk wd (i + pre.length) post
            (executeActionsAux cmdOk wd i pre w0).2).2) := by
  induction pre with
  | nil => intro i w0; simp [executeActionsAux]
  | cons a pre ih =>
    intro i w0
    have hidx : i + (pre.length + 1) = (i + 1) + pre.length := by omega
    simp only [List.cons_append, executeActionsAux, List.length_cons, hidx]
    cases hv : validate a with
    | some e => simp [ih]
    | none =>
      cases he : execAction cmdOk wd a w0 with
      | mk r w1 =>
        cases r with
        | some e => simp [ih]
        | none => simp [ih]

theorem executeActionsAux_length (cmdOk : String → Bool) (wd : String)
    (actions : List Action) :
    ∀ (i : Nat) (w0 : World),
      (executeActionsAux cmdOk wd i actions w0).1.length = actions.length := by
  induction actions with
  | nil => intro i w0; rfl
  | cons a rest ih =>
    intro i w0
    simp only [executeActionsAux]
    cases hv : validate a with
    | some e => simp [ih]
    | none =>
      cases he : execAction cmdOk wd a w0 with
      | mk r w1 =>
        cases r with
        | some e => simp [ih]
        | none => simp [ih]

theorem executeActions_none_iff (cmdOk : String → Bool) (wd : String)
    (actions : List Action) (w0 : World) :
    (executeActions cmdOk wd actions w0).1 = none ↔
      ∀ o ∈ (executeActionsAux cmdOk wd 1 actions w0).1, o = none := by
  simp only [executeActions]
  by_cases hc :
      ((executeActionsAux cmdOk wd 1 actions w0).1.filterMap id).length > 0
  · simp only [hc, if_true]
    constructor
    · intro h; exact absurd h (by simp)
    · intro h
      exfalso
      have hnil : (executeActionsAux cmdOk wd 1 actions w0).1.filterMap id = [] :=
        List.filterMap_eq_nil_iff.mpr (fun o ho => by simpa using h o ho)
      rw [hnil] at hc
      simp at hc
  · simp only [hc, if_false]
    constructor
    · intro _ o ho
      have hnil : (executeActionsAux cmdOk wd 1 actions w0).1.filterMap id = [] := by
        have := Nat.eq_zero_of_not_pos hc
        exact List.length_eq_zero.mp this
      have := List.filterMap_eq_nil_iff.mp hnil o ho
      simpa using this
    · intro _; trivial

/-- C1: `ExecuteActions` (current variant) isolates failures.  The loop
over `pre ++ post` always runs `post` from the state left by `pre`,
whatever outcomes `pre` produced — so a failure at any index never
prevents the later actions from being attempted; exactly one outcome is
recorded per action; the aggregate result is success precisely when
every recorded outcome is a success, and otherwise is the error
carrying the number of failed actions. -/
theorem executeActions_attempts_every_action (cmdOk : String → Bool) (wd : String) :
    (∀ (i : Nat) (pre post : List Action) (w0 : World),
      executeActionsAux cmdOk wd i (pre ++ post) w0 =
        ((executeActionsAux cmdOk wd i pre w0).1 ++
          (executeActionsAux cmdOk wd (i + pre.length) post
            (executeActionsAux cmdOk wd i pre w0).2).1,
         (executeActionsAux cmdOk wd (i + pre.length) post
            (executeActionsAux cmdOk wd i pre w0).2).2)) ∧
    (∀ (i : Nat) (actions : List Action) (w0 : World),
      (executeActionsAux cmdOk wd i actions w0).1.length = actions.length) ∧
    (∀ (actions : List Action) (w0 : World),
      (executeActions cmdOk wd actions w0).1 = none ↔
        ∀ o ∈ (executeActionsAux cmdOk wd 1 actions w0).1, o = none) ∧
    (∀ (actions : List Action) (w0 : World),
      (executeActions cmdOk wd actions w0).1 = none ∨
        (executeActions cmdOk wd actions w0).1 =
          some ("completed with " ++
            toString ((executeActionsAux cmdOk wd 1 actions w0).1.filterMap id).length ++
            " failure(s)")) := by
  refine ⟨fun i pre post w0 => executeActionsAux_append cmdOk wd pre post i w0,
    fun i actions w0 => executeActionsAux_length cmdOk wd actions i w0,
    fun actions w0 => executeActions_none_iff cmdOk wd actions w0,
    fun actions w0 => ?_⟩
  by_cases hc :
      ((executeActionsAux cmdOk wd 1 actions w0).1.filterMap id).length > 0
  · right; simp [executeActions, hc]
  · left; simp [executeActions, hc]

/-! ## Claim C3 -/

/-- The calls made by `streamLoop` for one passive line. -/
def lineCalls (cb : String → Option String) (l : String) : List String :=
  let t := goTrim l
  if t = "" then []
  else
    match parseChunkLine t with
    | some c => if chunkPart c = "" then [] else [chunkPart c]
    | none => [t]

theorem streamLoop_passive_cons (cb : String → Option String) (l : String)
    (rest : List String) (hp : passiveLine cb l) :
    streamLoop cb (l :: rest) =
      (lineCalls cb l ++ (streamLoop cb rest).1, (streamLoop cb rest).2) := by
  rcases hp with ht | hm
  · simp [streamLoop, lineCalls, ht]
  · by_cases ht : goTrim l = ""
    · simp [streamLoop, lineCalls, ht]
    · cases hc : parseChunkLine (goTrim l) with
      | some c =>
        rw [hc] at hm
        obtain ⟨herr, hdone, hpart⟩ := hm
        rcases hpart with hpe | hcb
        · simp [streamLoop, lineCalls, ht, hc, herr, hpe, hdone]
        · by_cases hpe : chunkPart c = ""
          · simp [streamLoop, lineCalls, ht, hc, herr, hpe, hdone]
          · simp [streamLoop, lineCalls, ht, hc, herr, hpe, hcb, hdone]
      | none =>
        rw [hc] at hm
        simp [streamLoop, lineCalls, ht, hc, hm]

theorem streamLoop_error_chunk (cb : String → Option String)
    (pre rest : List String) (line : String) (c : StreamChunk)
    (hpre : ∀ l ∈ pre, passiveLine cb l)
    (ht : goTrim line ≠ "")
    (hp : parseChunkLine (goTrim line) = some c)
    (he : c.error ≠ "") :
    streamLoop cb (pre ++ line :: rest) =
      ((streamLoop cb pre).1, .streamErr ("stream error: " ++ c.error)) := by
  induction pre with
  | nil =>
    simp [streamLoop, ht, hp, he]
  | cons l pre ih =>
    have hl : passiveLine cb l := hpre l (by simp)
    have hrest : ∀ x ∈ pre, passiveLine cb x := fun x hx => hpre x (by simp [hx])
    have ih2 := ih hrest
    rw [List.cons_append, streamLoop_passive_cons cb l _ hl,
      streamLoop_passive_cons cb l pre hl, ih2]

/-- C3: an explicit error chunk aborts the stream at that chunk — after
any passive prefix, the callback invocations are exactly those of the
prefix (the error chunk and everything after it are never forwarded),
the loop result is the stream error, and `SendMessage` returns that
error without extracting any action. -/
theorem stream_error_aborts_interaction (userCb : String → Option String)
    (pre rest : List String) (line : String) (c : StreamChunk)
    (hpre : ∀ l ∈ pre, passiveLine (fun s => userCb (genTransform s)) l)
    (ht : goTrim line ≠ "")
    (hp : parseChunkLine (goTrim line) = some c)
    (he : c.error ≠ "") :
    streamLoop (fun s => userCb (genTransform s)) (pre ++ line :: rest) =
      ((streamLoop (fun s => userCb (genTransform s)) pre).1,
        .streamErr ("stream error: " ++ c.error)) ∧
    sendMessage userCb (pre ++ line :: rest) =
      .error ("failed to stream chat: stream error: " ++ c.error) := by
  have h1 := streamLoop_error_chunk (fun s => userCb (genTransform s))
    pre rest line c hpre ht hp he
  refine ⟨h1, ?_⟩
  simp only [sendMessage, h1]
  rw [← String.append_assoc]
  rfl

/-- Witness for C3: a raw passive line, then an error chunk, then a
further chunk that is never processed. -/
theorem stream_error_aborts_interaction_witness :
    streamLoop (fun s => (fun _ => none : String → Option String) (genTransform s))
        (["hello"] ++ "\x7b\"error\":\"boom\"\x7d" :: ["\x7b\"response\":\"later\"\x7d"]) =
      ((streamLoop (fun s => (fun _ => none : String → Option String) (genTransform s))
          ["hello"]).1,
        .streamErr ("stream error: " ++ "boom")) ∧
    sendMessage (fun _ => none)
        (["hello"] ++ "\x7b\"error\":\"boom\"\x7d" :: ["\x7b\"response\":\"later\"\x7d"]) =
      .error ("failed to stream chat: stream error: " ++ "boom") :=
  stream_error_aborts_interaction (fun _ => none) ["hello"]
    ["\x7b\"response\":\"later\"\x7d"] "\x7b\"error\":\"boom\"\x7d"
    ⟨"", "", false, "boom"⟩
    (by intro l hl
        simp only [List.mem_singleton] at hl
        subst hl
        exact Or.inr rfl)
    (by decide) rfl (by decide)

/-! ## Claim C4 -/

theorem foldl_append_map {α β : Type} (l : List α) (f : α → List β) (acc : List β) :
    l.foldl (fun a x => a ++ f x) acc = acc ++ (l.map f).flatten := by
  induction l generalizing acc with
  | nil => simp
  | cons x xs ih => simp [ih, List.append_assoc]

theorem foldl_push {α : Type} (l : List α) (acc : List α) :
    l.foldl (fun a x => a ++ [x]) acc = acc ++ l := by
  induction l generalizing acc with
  | nil => simp
  | cons x xs ih => simp [ih]

theorem fencedStep_acc (acc : List Action) (m : List (String × Nat))
    (b : List Char × List Char) :
    fencedStep (acc, m) b =
      (acc ++ (fencedStep ([], m) b).1, (fencedStep ([], m) b).2) := by
  simp only [fencedStep]
  cases findMarker (toLowerStr (goTrim (String.mk b.1))) b.2 with
  | none => simp
  | some f => simp

theorem fencedFold_acc (blocks : List (List Char × List Char)) :
    ∀ (acc : List Action) (m : List (String × Nat)),
      blocks.foldl fencedStep (acc, m) =
        (acc ++ (blocks.foldl fencedStep ([], m)).1,
         (blocks.foldl fencedStep ([], m)).2) := by
  induction blocks with
  | nil => intro acc m; simp
  | cons b rest ih =>
    intro acc m
    simp only [List.foldl_cons]
    rw [fencedStep_acc acc m b]
    rcases hstep : fencedStep ([], m) b with ⟨acts1, m1⟩
    rw [ih (acc ++ acts1) m1, ih acts1 m1]
    simp [List.append_assoc]

/-- C4 counterexample: in this document the execute_command markup
occurs strictly before the create_file markup, yet the extracted list
places the create_file action first — extraction is grouped by pass,
not ordered by document position across variants. -/
theorem parse_not_in_document_order :
    parse ("<execute_command><command>ls</command></execute_command>" ++
        "<create_file><path>a</path><content>b</content></create_file>") =
      [Action.createFile "a" "b", Action.executeCommand "ls" ""] := by
  rfl

/-- C4 amended: the extracted action list is the concatenation of the
passes in their fixed order — json-fallback matches, then marked fenced
code blocks, then the five tag passes (create_file, execute_command,
create_directory, modify_file, read_file) — each pass internally in
document order (its scanner advances strictly left to right). -/
theorem parse_grouped_by_pass (r : String) :
    parse r = jsonPass r ++ fencedPass r ++ tagPass matchCreateFile r ++
      tagPass matchExecCmd r ++ tagPass matchCreateDir r ++
      tagPass matchModifyFile r ++ tagPass matchReadFile r := by
  simp only [parse, jsonPass, fencedPass, tagPass, fencedBlocksOf]
  rw [foldl_push, foldl_push, foldl_push, foldl_push, foldl_push,
    foldl_append_map, List.nil_append, fencedFold_acc]

/-! ## Claim C7 -/

/-- Modelled from the claim wording (refinement target): probe an
object for a path-like key, preferring `path` and falling back to
`name`, keeping only string values. -/
def pathProbe (fields : List (String × JsonVal)) : Option String :=
  match lookupJ fields "path" with
  | some (.str s) => some s
  | _ =>
    match lookupJ fields "name" with
    | some (.str s) => some s
    | _ => none

/-- Modelled from the claim wording (refinement target): probe an
object for a content-like key, preferring `content` and falling back
to `body`. -/
def contentProbe (fields : List (String × JsonVal)) : Option String :=
  match lookupJ fields "content" with
  | some (.str s) => some s
  | _ =>
    match lookupJ fields "body" with
    | some (.str s) => some s
    | _ => none

/-- Modelled from the claim wording (refinement target): an object
becomes a CreateFile action exactly when both probes resolve to
non-empty strings. -/
def specFileObj (fields : List (String × JsonVal)) : Option Action :=
  match pathProbe fields, contentProbe fields with
  | some p, some c =>
    if p ≠ "" ∧ c ≠ "" then some (.createFile (goTrim p) c) else none
  | _, _ => none

theorem pathVal_eq (fields : List (String × JsonVal)) :
    (match lookupJ fields "path" with
     | some (.str s) => s
     | _ =>
       match lookupJ fields "name" with
       | some (.str s) => s
       | _ => "") = (pathProbe fields).getD "" := by
  unfold pathProbe
  cases hp : lookupJ fields "path" with
  | some vp =>
    cases vp
    case str => rfl
    all_goals
      cases hn : lookupJ fields "name"
      case none => rfl
      case some vn => cases vn <;> rfl
  | none =>
    cases hn : lookupJ fields "name"
    case none => rfl
    case some vn => cases vn <;> rfl

theorem contentVal_eq (fields : List (String × JsonVal)) :
    (match lookupJ fields "content" with
     | some (.str s) => s
     | _ =>
       match lookupJ fields "body" with
       | some (.str s) => s
       | _ => "") = (contentProbe fields).getD "" := by
  unfold contentProbe
  cases hp : lookupJ fields "content" with
  | some vp =>
    cases vp
    case str => rfl
    all_goals
      cases hn : lookupJ fields "body"
      case none => rfl
      case some vn => cases vn <;> rfl
  | none =>
    cases hn : lookupJ fields "body"
    case none => rfl
    case some vn => cases vn <;> rfl

theorem fileObjAction_eq_spec (fields : List (String × JsonVal)) :
    fileObjAction fields = specFileObj fields := by
  unfold fileObjAction specFileObj
  rw [pathVal_eq, contentVal_eq]
  cases pathProbe fields with
  | none => simp
  | some p =>
    cases contentProbe fields with
    | none => simp
    | some c => simp

/-- C7: the representative document — a fenced `json` block whose body
is `{"files":[{"name":"a.txt","content":"x"}]}` — extracts exactly one
CreateFile action with path `a.txt` and content `x`; and in general an
object of a files array becomes a CreateFile action exactly when the
path-like probe (`path`, falling back to `name`) and the content-like
probe (`content`, falling back to `body`) both resolve to non-empty
strings. -/
theorem json_files_array_extraction :
    parse "```json\n\x7b\"files\":[\x7b\"name\":\"a.txt\",\"content\":\"x\"\x7d]\x7d\n```" =
      [Action.createFile "a.txt" "x"] ∧
    ∀ items : List JsonVal,
      arrayFileActions items = items.filterMap (fun it =>
        match it with
        | .obj fields => specFileObj fields
        | _ => none) := by
  constructor
  · rfl
  · intro items
    unfold arrayFileActions
    refine List.filterMap_congr ?_
    intro it _
    cases it <;> simp [fileObjAction_eq_spec]

/-! ## Claim C8 -/

/-- Occurrences of `k` in a list of names. -/
def countOcc : List String → String → Nat
  | [], _ => 0
  | x :: xs, k => (if x = k then 1 else 0) + countOcc xs k

theorem countOcc_append (prev : List String) (name k : String) :
    countOcc (prev ++ [name]) k = countOcc prev k + (if name = k then 1 else 0) := by
  induction prev with
  | nil => simp [countOcc]
  | cons x xs ih => simp [countOcc, ih]; omega

theorem lookupCount_bump (m : List (String × Nat)) (k k2 : String) :
    lookupCount (bumpCount m k) k2 =
      if k2 = k then lookupCount m k + 1 else lookupCount m k2 := by
  induction m with
  | nil =>
    by_cases h : k2 = k
    · subst h; simp [lookupCount, bumpCount, List.find?]
    · have h2 : ¬ (k = k2) := fun hx => h hx.symm
      simp [lookupCount, bumpCount, List.find?, h, h2]
  | cons e rest ih =>
    by_cases he : e.1 = k
    · simp only [bumpCount, he, if_true]
      by_cases h2 : k2 = k
      · subst h2
        simp [lookupCount, List.find?, he]
      · have h3 : ¬ (k = k2) := fun hx => h2 hx.symm
        have h4 : ¬ (e.1 = k2) := by rw [he]; exact h3
        simp [lookupCount, List.find?, h2, h3, h4]
    · simp only [bumpCount, he, if_false]
      by_cases h2 : e.1 = k2
      · have hne : ¬ (k2 = k) := by
          intro hx; exact he (h2.trans hx)
        simp [lookupCount, List.find?, h2, hne]
      · simp only [lookupCount, List.find?, h2, decide_eq_true_eq]
        have hrec := ih
        simp only [lookupCount] at hrec
        simp [h2, he, hrec]

/-- Modelled from the claim wording for C8 (refinement target): walk the
fenced blocks; a block with no `@create-file:` marker for its language
contributes nothing; a marked block contributes a CreateFile action
whose content is the whole block body and whose path is the marker's
filename with every `..` substring removed — with, if the same
sanitized filename occurred on `cnt > 0` earlier marked blocks, the
numeric suffix `.cnt` inserted before the extension. -/
def fencedSpecAux (prev : List String) : List (List Char × List Char) → List Action
  | [] => []
  | blk :: rest =>
    let lang := toLowerStr (goTrim (String.mk blk.1))
    match findMarker lang blk.2 with
    | none => fencedSpecAux prev rest
    | some f =>
      let name := goReplaceAll (goTrim (String.mk f)) ".." ""
      let cnt := countOcc prev name
      let path :=
        if cnt = 0 then name
        else goTrimSuffix name (filepathExt name) ++ "." ++ toString cnt ++ filepathExt name
      Action.createFile path (String.mk blk.2) :: fencedSpecAux (prev ++ [name]) rest

theorem fencedFold_eq_spec (blocks : List (List Char × List Char)) :
    ∀ (m : List (String × Nat)) (prev : List String),
      (∀ k, lookupCount m k = countOcc prev k) →
      (blocks.foldl fencedStep ([], m)).1 = fencedSpecAux prev blocks := by
  induction blocks with
  | nil => intro m prev _; rfl
  | cons b rest ih =>
    intro m prev hinv
    simp only [List.foldl_cons, fencedSpecAux]
    cases hm : findMarker (toLowerStr (goTrim (String.mk b.1))) b.2 with
    | none =>
      have hstep : fencedStep ([], m) b = ([], m) := by
        simp [fencedStep, hm]
      rw [hstep]
      exact ih m prev hinv
    | some f =>
      have hstep : fencedStep ([], m) b =
          ([Action.createFile
              (if lookupCount m (goReplaceAll (goTrim (String.mk f)) ".." "") > 0 then
                goTrimSuffix (goReplaceAll (goTrim (String.mk f)) ".." "")
                    (filepathExt (goReplaceAll (goTrim (String.mk f)) ".." "")) ++ "." ++
                  toString (lookupCount m (goReplaceAll (goTrim (String.mk f)) ".." "")) ++
                  filepathExt (goReplaceAll (goTrim (String.mk f)) ".." "")
              else goReplaceAll (goTrim (String.mk f)) ".." "") (String.mk b.2)],
            bumpCount m (goReplaceAll (goTrim (String.mk f)) ".." "")) := by
        simp [fencedStep, hm]
      rw [hstep]
      have hname := hinv (goReplaceAll (goTrim (String.mk f)) ".." "")
      have hinv2 : ∀ k,
          lookupCount (bumpCount m (goReplaceAll (goTrim (String.mk f)) ".." "")) k =
            countOcc (prev ++ [goReplaceAll (goTrim (String.mk f)) ".." ""]) k := by
        intro k
        rw [lookupCount_bump, countOcc_append]
        by_cases hk : k = goReplaceAll (goTrim (String.mk f)) ".." ""
        · subst hk; simp [hname]
        · have hnk : ¬ (goReplaceAll (goTrim (String.mk f)) ".." "" = k) :=
            fun hx => hk hx.symm
          simp [hk, hnk, hinv k]
      rw [fencedFold_acc, ih (bumpCount m (goReplaceAll (goTrim (String.mk f)) ".." ""))
        (prev ++ [goReplaceAll (goTrim (String.mk f)) ".." ""]) hinv2]
      rw [hname]
      by_cases hcnt : countOcc prev (goReplaceAll (goTrim (String.mk f)) ".." "") = 0
      · simp [hcnt]
      · have hpos : countOcc prev (goReplaceAll (goTrim (String.mk f)) ".." "") > 0 :=
          Nat.pos_of_ne_zero hcnt
        simp [hcnt, hpos]

/-- C8: the fenced-code pass of `Parse` equals its declarative
description: exactly the marker-bearing blocks produce CreateFile
actions, in block order, with the whole (whitespace-trimmed) block body
as content and the sanitized, uniquified marker filename as path;
markerless blocks produce nothing. -/
theorem fenced_marker_blocks_spec (r : String) :
    fencedPass r = fencedSpecAux [] (fencedBlocksOf r) :=
  fencedFold_eq_spec (fencedBlocksOf r) [] [] (fun _ => rfl)

end Agent
